import Mathlib

/-!
Verification of the graph-fusion compiler core of oneDNN's graph API
(`src/interface/op.hpp`, `src/interface/graph.hpp`, the pattern-fusion
passes exercised by `tests/cpp/unit/test_pass.cpp`).

The interface headers are embedded directly.  Components whose sources are
not part of this snapshot (the operator schema registry internals, the
attribute variant accessor, the pattern matcher and the pass manager) are
modelled from the specification, as flagged on each definition.
-/

set_option autoImplicit false

namespace DnnlGraph

/-- Result codes of the graph API (`status_t`). -/
inductive Status where
  | success
  | invalid_argument
  | invalid_op
  | invalid_graph
  | duplicate_id
  | unsupported
  deriving DecidableEq, Repr

/-- Tags of the attribute variant (`attribute_kind_t`): scalar and list forms. -/
inductive AttrKind where
  | i64
  | f32
  | boolean
  | str
  | i64s
  | f32s
  | booleans
  | strs
  deriving DecidableEq, Repr

/-- Tagged attribute value (`attribute_value`).  Machine floats are embedded
as rationals; every float literal the tests compare on (0, 5, 6) is exactly
representable, so equality tests are preserved. -/
inductive AttrValue where
  | i64 (v : Int)
  | f32 (v : ℚ)
  | boolean (v : Bool)
  | str (v : String)
  | i64s (v : List Int)
  | f32s (v : List ℚ)
  | booleans (v : List Bool)
  | strs (v : List String)
  deriving DecidableEq, Repr

/-- The tag held by an `attribute_value` (`attribute_value::get_kind`). -/
def AttrValue.get_kind : AttrValue → AttrKind
  | .i64 _ => .i64
  | .f32 _ => .f32
  | .boolean _ => .boolean
  | .str _ => .str
  | .i64s _ => .i64s
  | .f32s _ => .f32s
  | .booleans _ => .booleans
  | .strs _ => .strs

/-- The op's attribute storage, `std::map<std::string, attribute_value>`,
embedded as an association list of unique keys. -/
abbrev AttrMap : Type := List (String × AttrValue)

/-- `std::map::find` on the attribute storage. -/
def findAttr (m : AttrMap) (name : String) : Option AttrValue :=
  match m with
  | [] => none
  | (k, v) :: rest => if k = name then some v else findAttr rest name

/-- `dnnl_graph_op::set_attr`: if an entry with the key exists its mapped
value is overwritten (`it->second = a`), otherwise a new entry is inserted. -/
def setAttr (m : AttrMap) (name : String) (a : AttrValue) : AttrMap :=
  match m with
  | [] => [(name, a)]
  | (k, v) :: rest =>
    if k = name then (k, a) :: rest else (k, v) :: setAttr rest name a

/-- Operator kinds that appear in the verified scenarios: public kinds first,
then the internal fused kinds produced by the rewrite passes. -/
inductive OpKind where
  | Convolution
  | BatchNormInference
  | ReLU
  | BiasAdd
  | HardTanh
  | Elu
  | Sigmoid
  | Multiply
  | Add
  | MatMul
  | Tanh
  | Pow
  | GELU
  | Wildcard
  | conv_bn
  | conv_relu
  | conv_bn_relu
  | conv_bias_bn_relu
  | conv_bias_relu6
  | conv_add
  | matmul_add
  | matmul_bias_swish
  | gelu_fused
  deriving DecidableEq, Repr

/-- `dnnl_graph_op` (`op.hpp`): id, kind, input/output logical tensors
(represented by their ids — only identity wiring matters to the claims)
and the attribute map.  The debug string plays no behavioural role. -/
structure Op where
  id : Nat
  kind : OpKind
  ins : List Nat
  outs : List Nat
  attrs : AttrMap
  deriving DecidableEq, Repr

/-- `dnnl_graph_op::set_attr` at op level. -/
def Op.set_attr (op : Op) (name : String) (a : AttrValue) : Op :=
  { op with attrs := setAttr op.attrs name a }

/-- `dnnl_graph_op::kind_of` (`op.hpp`): tag of the stored attribute, or
`invalid_argument` when no attribute of that name exists. -/
def Op.kind_of (op : Op) (name : String) : Status × Option AttrKind :=
  match findAttr op.attrs name with
  | none => (.invalid_argument, none)
  | some v => (.success, some v.get_kind)

/-- Modelled from the spec: the typed attribute read `get_attr<T>`.
`op.hpp` returns `invalid_argument` when the name is absent; the tag check
of the variant accessor (`attribute_value::get`, not in this snapshot, used
through `kind_of`) fails with `invalid_argument` when the stored tag
differs from the requested one; otherwise the stored value is produced. -/
def Op.get_attr (op : Op) (name : String) (k : AttrKind) :
    Status × Option AttrValue :=
  match findAttr op.attrs name with
  | none => (.invalid_argument, none)
  | some v =>
    if v.get_kind = k then (.success, some v) else (.invalid_argument, none)

/-- An operator schema (`op_schema`): the default-attribute filler and the
verification predicate.  `add_op` only consumes these two entry points, so
the registry is abstracted as a lookup from kind to schema. -/
structure OpSchema where
  set_default_attribute : Op → Op
  verify : Op → Bool

/-- `dnnl_graph_graph` as seen by `add_op`: the added-op list `ops_`. -/
structure Graph where
  ops : List Op
  deriving DecidableEq, Repr

/-- `dnnl_graph_graph::add_op` (`graph.hpp`): if no stored op has the same
id, a copy of the op is taken, defaulted and verified against the schema
when one exists (`invalid_op` on verification failure), and appended;
otherwise nothing happens.  The function returns `success` on every path
that reaches its final statement — including the duplicate-id path. -/
def add_op (schemaOf : OpKind → Option OpSchema) (g : Graph) (op : Op) :
    Status × Graph :=
  if g.ops.all (fun o => o.id != op.id) then
    match schemaOf op.kind with
    | some opm =>
      let tmp := opm.set_default_attribute op
      if opm.verify tmp then (.success, ⟨g.ops ++ [tmp]⟩)
      else (.invalid_op, g)
    | none => (.success, ⟨g.ops ++ [op]⟩)
  else (.success, g)

/-!  The pattern-match-and-rewrite engine.  The pass sources are not part of
this snapshot; everything below the graph navigation helpers is modelled
from the spec (sections 4.3-4.4): declarative chain patterns whose edges
either pin the consumer's input slot 0 or, for commutative binary ops, allow
either of the two input slots; interior matched ops must have a single
output consumed exactly once (fan-out 1). -/

/-- The producer of a value: the op holding the tensor in an output slot. -/
def producer (g : Graph) (t : Nat) : Option Op :=
  g.ops.find? (fun n => n.outs.contains t)

/-- Fan-out of a value: how many input slots across the graph consume it. -/
def fanOut (g : Graph) (t : Nat) : Nat :=
  (g.ops.map (fun n => n.ins.count t)).sum

/-- Modelled from the spec: a pattern edge either pins the consumer's input
slot 0 (non-commutative consumers) or permits either input slot of a
two-input commutative consumer (`Add`, `Multiply`). -/
inductive EdgeSlot where
  | fixed0
  | eitherSlot
  deriving DecidableEq, Repr

/-- Modelled from the spec: a pattern node: op-kind filter, optional
input-arity requirement, attribute predicate. -/
structure Stage where
  kind : OpKind
  arity : Option Nat
  attrOk : AttrMap → Bool

/-- Modelled from the spec: a rooted chain pattern walked backwards from the
root (the sink), with the fused op kind of its rewrite. -/
structure Pattern where
  root : Stage
  chain : List (EdgeSlot × Stage)
  fused : OpKind

/-- Kind, arity and attribute checks of one pattern node on a graph op. -/
def stageOk (st : Stage) (n : Op) : Bool :=
  n.kind == st.kind
    && (match st.arity with
        | none => true
        | some a => n.ins.length == a)
    && st.attrOk n.attrs

/-- Modelled from the spec: the backward walk of the matcher.  At each edge
the candidate producer of the consumer's pinned (or either) input slot must
satisfy the pattern node and have a single output of fan-out 1, so that no
interior value escapes the match.  For commutative edges both orderings are
tried and the first success wins. -/
def matchChain (g : Graph) : List (EdgeSlot × Stage) → Op → Option (List Op)
  | [], _ => some []
  | (e, st) :: rest, c =>
    match e with
    | .fixed0 =>
      match c.ins.head? with
      | none => none
      | some t =>
        match producer g t with
        | none => none
        | some p =>
          if stageOk st p && (p.outs.length == 1) && (fanOut g t == 1) then
            (matchChain g rest p).map (fun l => p :: l)
          else none
    | .eitherSlot =>
      match c.ins with
      | [a, b] =>
        (match producer g a with
          | none => none
          | some p =>
            if stageOk st p && (p.outs.length == 1) && (fanOut g a == 1) then
              (matchChain g rest p).map (fun l => p :: l)
            else none).orElse
          (fun _ =>
            match producer g b with
            | none => none
            | some p =>
              if stageOk st p && (p.outs.length == 1) && (fanOut g b == 1)
              then (matchChain g rest p).map (fun l => p :: l)
              else none)
      | _ => none

/-- One backward step of the walk, starting from a known tensor: the shape
shared by both branches of `matchChain`. -/
def tryAt (g : Graph) (st : Stage) (rest : List (EdgeSlot × Stage))
    (t : Nat) : Option (List Op) :=
  match producer g t with
  | none => none
  | some p =>
    if stageOk st p && (p.outs.length == 1) && (fanOut g t == 1) then
      (matchChain g rest p).map (fun l => p :: l)
    else none

/-- A match attempt rooted at op `c`: root constraints, then the chain; the
matched ops are returned root first. -/
def tryMatch (g : Graph) (pat : Pattern) (c : Op) : Option (List Op) :=
  if stageOk pat.root c then
    (matchChain g pat.chain c).map (fun l => c :: l)
  else none

/-- A partition produced by one successful rewrite: the fused op kind and
the matched ops it owns, in match order (root first). -/
structure Partition where
  fused : OpKind
  pops : List Op
  deriving DecidableEq, Repr

/-- The match primitive of a pass: given the graph and a root candidate,
either a fused kind with the full matched op list, or no match. -/
def PassFn : Type := Graph → Op → Option (OpKind × List Op)

/-- A pattern pass with its variant patterns, tried in order. -/
def patternFn (variants : List Pattern) : PassFn := fun g c =>
  variants.findSome? (fun pat =>
    (tryMatch g pat c).map (fun l => (pat.fused, l)))

def nodupB : List Nat → Bool
  | [] => true
  | x :: xs => !xs.contains x && nodupB xs

/-- One scan step of a pass run: attempt a match rooted at `c`; on success,
if every matched op is distinct and still unclaimed, record a partition and
claim the matched ids. -/
def stepOp (f : PassFn) (g : Graph) (st : List Nat × List Partition)
    (c : Op) : List Nat × List Partition :=
  match f g c with
  | none => st
  | some (k, mops) =>
    let ids := mops.map Op.id
    if ids.all (fun i => !st.1.contains i) && nodupB ids then
      (st.1 ++ ids, st.2 ++ [⟨k, mops⟩])
    else st

/-- Run one pass over the graph: scan the op list for root candidates,
threading the claimed-id set and the produced partitions. -/
def runPassFn (f : PassFn) (g : Graph) (st : List Nat × List Partition) :
    List Nat × List Partition :=
  g.ops.foldl (stepOp f g) st

/-- Run a pattern pass on an unclaimed graph, yielding its partitions. -/
def runPatternPass (variants : List Pattern) (g : Graph) : List Partition :=
  (runPassFn (patternFn variants) g ([], [])).2

/-- Attribute predicate placing no constraint. -/
def anyAttrs : AttrMap → Bool := fun _ => true

/-- Modelled from the spec: `HardTanh` matches `relu6` only with
`min == 0` and `max == 6`. -/
def relu6Attrs : AttrMap → Bool := fun m =>
  findAttr m "min" == some (.f32 0) && findAttr m "max" == some (.f32 6)

/-- Modelled from the spec: `conv_bn_fusion` — `Convolution` (2-input form)
feeding `BatchNormInference`. -/
def convBnPass : List Pattern :=
  [⟨⟨.BatchNormInference, some 5, anyAttrs⟩,
    [(.fixed0, ⟨.Convolution, some 2, anyAttrs⟩)], .conv_bn⟩]

/-- Modelled from the spec: `conv_bias_bn_relu_fusion` — either the explicit
`BiasAdd` form (2-input conv) or the 3-input conv-with-bias form. -/
def convBiasBnReluPass : List Pattern :=
  [⟨⟨.ReLU, some 1, anyAttrs⟩,
    [(.fixed0, ⟨.BatchNormInference, some 5, anyAttrs⟩),
      (.fixed0, ⟨.BiasAdd, some 2, anyAttrs⟩),
      (.fixed0, ⟨.Convolution, some 2, anyAttrs⟩)], .conv_bias_bn_relu⟩,
    ⟨⟨.ReLU, some 1, anyAttrs⟩,
      [(.fixed0, ⟨.BatchNormInference, some 5, anyAttrs⟩),
        (.fixed0, ⟨.Convolution, some 3, anyAttrs⟩)], .conv_bias_bn_relu⟩]

/-- Modelled from the spec: `conv_bias_relu6_fusion` —
`Convolution → BiasAdd → HardTanh{min=0, max=6}`. -/
def convBiasRelu6Pass : List Pattern :=
  [⟨⟨.HardTanh, some 1, relu6Attrs⟩,
    [(.fixed0, ⟨.BiasAdd, some 2, anyAttrs⟩),
      (.fixed0, ⟨.Convolution, some 2, anyAttrs⟩)], .conv_bias_relu6⟩]

/-- Modelled from the spec: `matmul_sum_fusion` — `Add` whose significant
operand (a `MatMul` output) may occupy either input slot. -/
def matmulSumPass : List Pattern :=
  [⟨⟨.Add, some 2, anyAttrs⟩,
    [(.eitherSlot, ⟨.MatMul, none, anyAttrs⟩)], .matmul_add⟩]

/-- Modelled from the spec: `gelu_fusion` (tanh-based form); every edge into
an `Add` or `Multiply` is commutative. -/
def geluPass : List Pattern :=
  [⟨⟨.Multiply, some 2, anyAttrs⟩,
    [(.eitherSlot, ⟨.Multiply, some 2, anyAttrs⟩),
      (.eitherSlot, ⟨.Add, some 2, anyAttrs⟩),
      (.eitherSlot, ⟨.Tanh, some 1, anyAttrs⟩),
      (.fixed0, ⟨.Multiply, some 2, anyAttrs⟩),
      (.eitherSlot, ⟨.Add, some 2, anyAttrs⟩),
      (.eitherSlot, ⟨.Multiply, some 2, anyAttrs⟩),
      (.eitherSlot, ⟨.Pow, some 1, anyAttrs⟩)], .gelu_fused⟩]

/-- Modelled from the spec: one ordering attempt of the swish diamond at a
`Multiply` root — `sT` should be the `Sigmoid` output and `bT` the `BiasAdd`
output that also feeds the `Sigmoid`, with a `MatMul` below the bias. -/
def swishTry (g : Graph) (c : Op) (sT bT : Nat) :
    Option (OpKind × List Op) :=
  match producer g sT, producer g bT with
  | some sg, some ba =>
    if sg.kind == .Sigmoid && sg.ins.length == 1 && sg.outs.length == 1
        && fanOut g sT == 1
        && ba.kind == .BiasAdd && ba.outs.length == 1 && fanOut g bT == 2
        && sg.ins.head? == some bT then
      match ba.ins.head? with
      | some mT =>
        match producer g mT with
        | some m =>
          if m.kind == .MatMul && m.outs.length == 1 && fanOut g mT == 1
          then some (.matmul_bias_swish, [c, sg, ba, m])
          else none
        | none => none
      | none => none
    else none
  | _, _ => none

/-- Modelled from the spec: `matmul_bias_swish_fusion` — swish is recognised
as `Sigmoid(x) * x` via a `Multiply` whose two inputs both trace to the same
producer after the bias; the commutative root tries both orderings. -/
def matmulBiasSwishFn : PassFn := fun g c =>
  if c.kind == .Multiply then
    match c.ins with
    | [x, y] => (swishTry g c x y).orElse (fun _ => swishTry g c y x)
    | _ => none
  else none

/-- Run the swish pass on an unclaimed graph. -/
def runSwishPass (g : Graph) : List Partition :=
  (runPassFn matmulBiasSwishFn g ([], [])).2

/-!  Concrete graphs of the test scenarios (`tests/cpp/unit/test_pass.cpp`).
Logical-tensor ids follow the `lt_vec` numbering of each test; graphs built
through `create_op`/`fill_and_connect_input` get synthetic tensor ids. -/

/-- The batch-norm epsilon 0.001 as an already-normalised rational. -/
def epsQ : ℚ := ⟨1, 1000, by decide, by decide⟩

/-- The attributes installed by `set_conv_common_attr`. -/
def convAttrs : AttrMap :=
  [("strides", .i64s [1, 1]), ("pads_begin", .i64s [0, 0]),
    ("pads_end", .i64s [0, 0]), ("dilations", .i64s [1, 1]),
    ("data_format", .str "NXC"), ("filter_format", .str "XIO"),
    ("groups", .i64 1), ("auto_pad", .str "None")]

/-- `conv_bn_fusion`: `Convolution(2-input) → BatchNormInference`. -/
def convBnGraph : Graph :=
  ⟨[⟨0, .Convolution, [0, 1], [2], convAttrs⟩,
    ⟨1, .BatchNormInference, [2, 3, 4, 5, 6], [7],
      [("epsilon", .f32 epsQ)]⟩]⟩

/-- `conv_bn_fusion_fail_case2` (scenario S3): one `Convolution` output
consumed by both a `BatchNormInference` and a `ReLU` (fan-out 2). -/
def convBnFanOutGraph : Graph :=
  ⟨[⟨0, .Convolution, [0, 1], [2], convAttrs⟩,
    ⟨1, .BatchNormInference, [2, 3, 4, 5, 6], [7],
      [("epsilon", .f32 epsQ)]⟩,
    ⟨2, .ReLU, [2], [8], []⟩]⟩

/-- Scenario S2 / `conv_bias_bn_relu_fusion_case2`: 3-input `Convolution`
(with bias) feeding `BatchNormInference` then `ReLU`. -/
def convBias3BnReluGraph : Graph :=
  ⟨[⟨0, .Convolution, [0, 1, 2], [3], convAttrs⟩,
    ⟨1, .BatchNormInference, [3, 4, 5, 6, 7], [8],
      [("epsilon", .f32 epsQ)]⟩,
    ⟨2, .ReLU, [8], [9], []⟩]⟩

/-- `conv_bias_bn_relu_fusion`: the explicit `BiasAdd` four-op chain. -/
def convBiasBnRelu4Graph : Graph :=
  ⟨[⟨0, .Convolution, [0, 1], [2], convAttrs⟩,
    ⟨1, .BiasAdd, [2, 3], [4], []⟩,
    ⟨2, .BatchNormInference, [4, 5, 6, 7, 8], [9],
      [("epsilon", .f32 epsQ)]⟩,
    ⟨3, .ReLU, [9], [10], []⟩]⟩

/-- `conv_bias_relu6_fusion`: `Convolution → BiasAdd → HardTanh` with the
hard-tanh bounds as attributes. -/
def relu6Graph (maxv : ℚ) : Graph :=
  ⟨[⟨0, .Convolution, [0, 1], [2], convAttrs⟩,
    ⟨1, .BiasAdd, [2, 3], [4], []⟩,
    ⟨2, .HardTanh, [4], [5], [("min", .f32 0), ("max", .f32 maxv)]⟩]⟩

/-- `matmul_sum_fusion` and its opposite-order variant: `MatMul` and a
`Wildcard` feeding the two slots of an `Add`. -/
def matmulSumGraph (swapped : Bool) : Graph :=
  ⟨[⟨0, .MatMul, [], [10], []⟩,
    ⟨1, .Wildcard, [], [11], []⟩,
    ⟨2, .Add, (if swapped then [11, 10] else [10, 11]), [12], []⟩]⟩

/-- `matmul_bias_swish_fusion`: `MatMul → BiasAdd → Sigmoid → Multiply`
where the `Multiply`'s other input is the `BiasAdd` output. -/
def matmulBiasSwishGraph : Graph :=
  ⟨[⟨0, .MatMul, [], [20], []⟩,
    ⟨1, .BiasAdd, [20], [21], []⟩,
    ⟨2, .Sigmoid, [21], [22], []⟩,
    ⟨3, .Multiply, [22, 21], [23], []⟩]⟩

/-- `gelu_tanh_based_fusion`: the tanh-form GELU diamond; the flags choose
which input slot of each of the two `Add` ops receives the significant
operand, matching the four parameterisations of the test. -/
def geluGraph (f1 f2 : Bool) : Graph :=
  ⟨[⟨0, .Wildcard, [], [21], []⟩,
    ⟨1, .Pow, [21], [22], []⟩,
    ⟨2, .Wildcard, [], [23], []⟩,
    ⟨3, .Multiply, [22, 23], [24], []⟩,
    ⟨4, .Wildcard, [], [25], []⟩,
    ⟨5, .Add, (if f1 then [25, 24] else [24, 25]), [26], []⟩,
    ⟨6, .Wildcard, [], [27], []⟩,
    ⟨7, .Multiply, [26, 27], [28], []⟩,
    ⟨8, .Tanh, [28], [29], []⟩,
    ⟨9, .Wildcard, [], [30], []⟩,
    ⟨10, .Add, (if f2 then [30, 29] else [29, 30]), [31], []⟩,
    ⟨11, .Wildcard, [], [32], []⟩,
    ⟨12, .Multiply, [31, 32], [33], []⟩,
    ⟨13, .Wildcard, [], [34], []⟩,
    ⟨14, .Multiply, [33, 34], [35], []⟩]⟩

/-!  Input-slot swapping, used to state commutativity of matching (C6). -/

/-- Swap the first two entries of a list, when it has at least two. -/
def swapHead2 : List Nat → List Nat
  | a :: b :: rest => b :: a :: rest
  | l => l

/-- Swap the two leading input slots of the op with the given id. -/
def swapNode (nid : Nat) (n : Op) : Op :=
  if n.id == nid then { n with ins := swapHead2 n.ins } else n

/-- The graph with the two leading input slots of op `nid` exchanged. -/
def swapIns (g : Graph) (nid : Nat) : Graph :=
  ⟨g.ops.map (swapNode nid)⟩

/-- A chain is commutation-safe when every slot-pinning edge sits on a
single-input consumer, so that matching never depends on the order of a
binary op's input slots.  The first argument is the consumer stage of the
head edge (initially the pattern root). -/
def safeChain : Stage → List (EdgeSlot × Stage) → Bool
  | _, [] => true
  | st, (.fixed0, st2) :: rest => (st.arity == some 1) && safeChain st2 rest
  | _, (.eitherSlot, st2) :: rest => safeChain st2 rest

/-- Commutation safety of a pattern: all commutative consumers are matched
through order-free edges. -/
def commutSafe (pat : Pattern) : Bool :=
  safeChain pat.root pat.chain

/-!  Value-flow order, used for the fan-out-safety invariant (C3). -/

/-- The op list is topologically sorted along value edges: a producer is
stored strictly before every consumer of one of its output tensors.  This
is the acyclicity guarantee `build_graph` establishes (invariant G2), under
which the tests add ops in dataflow order. -/
def TopoSorted (g : Graph) : Prop :=
  ∀ i j : Fin g.ops.length, ∀ t ∈ (g.ops.get i).outs,
    t ∈ (g.ops.get j).ins → i.val < j.val

instance (g : Graph) : Decidable (TopoSorted g) := by
  unfold TopoSorted
  infer_instance

/-- One value edge between two ops of the graph. -/
def StepRel (g : Graph) (p c : Op) : Prop :=
  p ∈ g.ops ∧ c ∈ g.ops ∧ ∃ t, t ∈ p.outs ∧ t ∈ c.ins

/-- The backward walk's soundness record: each matched op is a member of
the graph, has a single output of fan-out 1, and that output feeds the
preceding matched op. -/
inductive Linked (g : Graph) : Op → List Op → Prop where
  | nil (c : Op) : Linked g c []
  | cons (c p : Op) (t : Nat) (rest : List Op) :
      p ∈ g.ops → p.outs = [t] → fanOut g t = 1 → t ∈ c.ins →
      Linked g p rest → Linked g c (p :: rest)

/-!  Pass registry and pass manager (C9); the manager sources are not in
this snapshot, so the ordering contract is modelled from the spec: a pass
carries a name, a type, a priority and its match primitive; with no config
the effective order is priority-descending; a config is taken verbatim,
dropping disabled entries and ignoring unknown names. -/

/-- A registered pass. -/
structure RegPass where
  name : String
  ptype : String
  priority : ℚ
  fn : PassFn

/-- Insert a pass in front of the first strictly lower-priority pass. -/
def insertByPrio (p : RegPass) : List RegPass → List RegPass
  | [] => [p]
  | q :: rest =>
    if q.priority < p.priority then p :: q :: rest
    else q :: insertByPrio p rest

/-- Priority-descending order of the registry (stable on ties). -/
def sortByPrioDesc (l : List RegPass) : List RegPass :=
  l.foldr insertByPrio []

/-- One entry of the pass-manager JSON configuration. -/
structure ConfigEntry where
  pass_name : String
  pass_type : String
  enable : Bool
  priority : ℚ

/-- Modelled from the spec: `print_passes` dumps the current (default,
priority-descending) ordering with every pass enabled. -/
def print_passes (reg : List RegPass) : List ConfigEntry :=
  (sortByPrioDesc reg).map (fun p => ⟨p.name, p.ptype, true, p.priority⟩)

/-- Look a pass up by name. -/
def findPass (reg : List RegPass) (nm : String) : Option RegPass :=
  reg.find? (fun p => p.name == nm)

/-- Modelled from the spec: the effective pass list — the config order
verbatim with disabled and unknown entries dropped, or, with no config,
the registry sorted by descending priority. -/
def effectivePasses (reg : List RegPass) (cfg : Option (List ConfigEntry)) :
    List RegPass :=
  match cfg with
  | none => sortByPrioDesc reg
  | some entries =>
    entries.filterMap (fun e =>
      if e.enable then findPass reg e.pass_name else none)

/-- Modelled from the spec: `run_passes` executes the effective pass list
sequentially over the graph, threading the claimed ops. -/
def run_passes (reg : List RegPass) (cfg : Option (List ConfigEntry))
    (g : Graph) : List Partition :=
  ((effectivePasses reg cfg).foldl (fun st p => runPassFn p.fn g st)
    ([], [])).2

/-!  Attribute-map lemmas. -/

theorem filter_key_of_not_mem (m : AttrMap) (n : String)
    (h : n ∉ m.map Prod.fst) : m.filter (fun p => p.1 == n) = [] := by
  induction m with
  | nil => rfl
  | cons kv rest ih =>
    simp only [List.map_cons, List.mem_cons, not_or] at h
    have hk : (kv.1 == n) = false :=
      beq_eq_false_iff_ne.mpr (fun e => h.1 e.symm)
    simp [List.filter_cons, hk, ih h.2]

theorem setAttr_filter_key (m : AttrMap) (n : String) (a : AttrValue)
    (h : (m.map Prod.fst).Nodup) :
    (setAttr m n a).filter (fun p => p.1 == n) = [(n, a)] := by
  induction m with
  | nil => simp [setAttr]
  | cons kv rest ih =>
    obtain ⟨k, v⟩ := kv
    simp only [List.map_cons, List.nodup_cons] at h
    by_cases hk : k = n
    · subst hk
      simp [setAttr, List.filter_cons, filter_key_of_not_mem rest k h.1]
    · have hkb : (k == n) = false := beq_eq_false_iff_ne.mpr hk
      simp [setAttr, hk, List.filter_cons, hkb, ih h.2]

theorem setAttr_filter_other (m : AttrMap) (n : String) (a : AttrValue) :
    (setAttr m n a).filter (fun p => !(p.1 == n))
      = m.filter (fun p => !(p.1 == n)) := by
  induction m with
  | nil => simp [setAttr]
  | cons kv rest ih =>
    obtain ⟨k, v⟩ := kv
    by_cases hk : k = n
    · subst hk
      simp [setAttr, List.filter_cons]
    · have hkb : (k == n) = false := beq_eq_false_iff_ne.mpr hk
      simp [setAttr, hk, List.filter_cons, hkb, ih]

theorem mem_keys_setAttr (m : AttrMap) (n : String) (a : AttrValue)
    (x : String) :
    x ∈ (setAttr m n a).map Prod.fst ↔ x ∈ m.map Prod.fst ∨ x = n := by
  induction m with
  | nil => simp [setAttr]
  | cons kv rest ih =>
    obtain ⟨k, v⟩ := kv
    by_cases hk : k = n
    · subst hk
      simp [setAttr]
      tauto
    · simp [setAttr, hk, ih]
      tauto

theorem setAttr_keys_nodup (m : AttrMap) (n : String) (a : AttrValue)
    (h : (m.map Prod.fst).Nodup) :
    ((setAttr m n a).map Prod.fst).Nodup := by
  induction m with
  | nil => simp [setAttr]
  | cons kv rest ih =>
    obtain ⟨k, v⟩ := kv
    simp only [List.map_cons, List.nodup_cons] at h
    by_cases hk : k = n
    · subst hk
      simpa [setAttr] using h
    · have hstep : setAttr ((k, v) :: rest) n a = (k, v) :: setAttr rest n a := by
        simp [setAttr, hk]
      rw [hstep, List.map_cons, List.nodup_cons]
      refine ⟨fun hmem => ?_, ih h.2⟩
      rcases (mem_keys_setAttr rest n a k).mp hmem with h1 | h2
      · exact h.1 h1
      · exact hk h2

/-- C10: `set_attr` with a name already present replaces the stored value:
afterwards the map holds exactly one entry for the name, carrying the new
value, every other entry is untouched, and keys stay duplicate-free. -/
theorem set_attr_overwrites (op : Op) (name : String) (a : AttrValue)
    (h : (op.attrs.map Prod.fst).Nodup) :
    ((op.set_attr name a).attrs.filter (fun p => p.1 == name) = [(name, a)])
    ∧ ((op.set_attr name a).attrs.filter (fun p => !(p.1 == name))
        = op.attrs.filter (fun p => !(p.1 == name)))
    ∧ ((op.set_attr name a).attrs.map Prod.fst).Nodup :=
  ⟨setAttr_filter_key op.attrs name a h,
    setAttr_filter_other op.attrs name a,
    setAttr_keys_nodup op.attrs name a h⟩

/-- C10 witness: a concrete overwrite of attribute `a` next to an untouched
attribute `b`. -/
theorem set_attr_overwrites_witness :
    (((Op.mk 0 .Wildcard [] [] [("a", .i64 1), ("b", .boolean true)]).set_attr
        "a" (.i64 7)).attrs.filter (fun p => p.1 == "a") = [("a", .i64 7)])
    ∧ (((Op.mk 0 .Wildcard [] [] [("a", .i64 1), ("b", .boolean true)]).set_attr
        "a" (.i64 7)).attrs.filter (fun p => !(p.1 == "a"))
        = (Op.mk 0 .Wildcard [] [] [("a", .i64 1), ("b", .boolean true)]).attrs.filter
            (fun p => !(p.1 == "a")))
    ∧ ((((Op.mk 0 .Wildcard [] [] [("a", .i64 1), ("b", .boolean true)]).set_attr
        "a" (.i64 7)).attrs.map Prod.fst).Nodup) :=
  set_attr_overwrites (Op.mk 0 .Wildcard [] []
    [("a", .i64 1), ("b", .boolean true)]) "a" (.i64 7) (by decide)

/-- C8: the typed attribute read succeeds exactly when an attribute of that
name is stored with the requested tag, in which case it yields the stored
value; a missing name or a tag mismatch both fail with `invalid_argument`. -/
theorem get_attr_typed (op : Op) (name : String) (k : AttrKind) :
    ((op.get_attr name k).1 = .success ↔
      ∃ v, findAttr op.attrs name = some v ∧ v.get_kind = k)
    ∧ (findAttr op.attrs name = none →
        op.get_attr name k = (.invalid_argument, none))
    ∧ (∀ v, findAttr op.attrs name = some v → v.get_kind ≠ k →
        op.get_attr name k = (.invalid_argument, none))
    ∧ (∀ v, findAttr op.attrs name = some v → v.get_kind = k →
        op.get_attr name k = (.success, some v)) := by
  unfold Op.get_attr
  cases hf : findAttr op.attrs name with
  | none => simp [hf]
  | some v =>
    by_cases hk : v.get_kind = k <;> simp [hf, hk]

/-- C8 witness: reading a stored `i64` attribute with the wrong and with the
right tag. -/
theorem get_attr_typed_witness :
    ((Op.mk 0 .Wildcard [] [] [("x", .i64 3)]).get_attr "x" .f32
        = (.invalid_argument, none))
    ∧ ((Op.mk 0 .Wildcard [] [] [("x", .i64 3)]).get_attr "x" .i64
        = (.success, some (.i64 3)))
    ∧ ((Op.mk 0 .Wildcard [] [] [("x", .i64 3)]).get_attr "y" .i64
        = (.invalid_argument, none)) :=
  ⟨(get_attr_typed (Op.mk 0 .Wildcard [] [] [("x", .i64 3)]) "x" .f32).2.2.1
      (.i64 3) rfl (by decide),
    (get_attr_typed (Op.mk 0 .Wildcard [] [] [("x", .i64 3)]) "x" .i64).2.2.2
      (.i64 3) rfl rfl,
    (get_attr_typed (Op.mk 0 .Wildcard [] [] [("x", .i64 3)]) "y" .i64).2.1
      rfl⟩

/-- C1 counterexample: adding an op whose id is already present returns
`success` — not `duplicate_id` — and silently skips the insertion. -/
theorem add_op_duplicate_returns_success :
    (∃ o ∈ (Graph.mk [⟨0, .Wildcard, [], [], []⟩]).ops,
        o.id = (Op.mk 0 .ReLU [] [] []).id)
    ∧ (add_op (fun _ => none) ⟨[⟨0, .Wildcard, [], [], []⟩]⟩
        ⟨0, .ReLU, [], [], []⟩).1 = .success
    ∧ Status.success ≠ Status.duplicate_id := by
  decide

/-- C1 (amended): `add_op` inserts exactly when the id is new and — when a
schema exists — the defaulted op passes verification; with a new id the op
is defaulted by `set_default_attributes` and then verified; the status is
`invalid_op` on verification failure and `success` otherwise, including on
the duplicate-id path, where the graph is unchanged. -/
theorem add_op_behaviour (schemaOf : OpKind → Option OpSchema) (g : Graph)
    (op : Op) :
    ((∃ o ∈ g.ops, o.id = op.id) → add_op schemaOf g op = (.success, g))
    ∧ ((∀ o ∈ g.ops, o.id ≠ op.id) →
        ((schemaOf op.kind = none →
            add_op schemaOf g op = (.success, ⟨g.ops ++ [op]⟩))
        ∧ (∀ opm, schemaOf op.kind = some opm →
            ((opm.verify (opm.set_default_attribute op) = true →
                add_op schemaOf g op
                  = (.success, ⟨g.ops ++ [opm.set_default_attribute op]⟩))
            ∧ (opm.verify (opm.set_default_attribute op) = false →
                add_op schemaOf g op = (.invalid_op, g)))))) := by
  constructor
  · rintro ⟨o, ho, hid⟩
    have hall : g.ops.all (fun o => o.id != op.id) = false := by
      rw [List.all_eq_false]
      exact ⟨o, ho, by simp [hid]⟩
    simp [add_op, hall]
  · intro hnew
    have hall : g.ops.all (fun o => o.id != op.id) = true :=
      List.all_eq_true.mpr (fun o ho => by simpa using hnew o ho)
    refine ⟨fun hs => by simp [add_op, hall, hs], fun opm hs => ?_⟩
    constructor <;> intro hv <;> simp [add_op, hall, hs, hv]

/-- C1 witness: with a fresh id and no schema the op is appended with
status `success`. -/
theorem add_op_behaviour_witness :
    add_op (fun _ => none) ⟨[⟨0, .Wildcard, [], [], []⟩]⟩
        ⟨1, .ReLU, [], [], []⟩
      = (.success, ⟨[⟨0, .Wildcard, [], [], []⟩, ⟨1, .ReLU, [], [], []⟩]⟩) :=
  ((add_op_behaviour (fun _ => none) ⟨[⟨0, .Wildcard, [], [], []⟩]⟩
      ⟨1, .ReLU, [], [], []⟩).2 (by decide)).1 rfl

/-- C2: whenever `add_op` reports a non-success status the stored op list is
exactly what it was before the call — same contents, same order. -/
theorem add_op_error_leaves_graph_unchanged
    (schemaOf : OpKind → Option OpSchema) (g : Graph) (op : Op)
    (h : (add_op schemaOf g op).1 ≠ .success) :
    (add_op schemaOf g op).2 = g := by
  by_cases hall : g.ops.all (fun o => o.id != op.id) = true
  · cases hs : schemaOf op.kind with
    | none => simp [add_op, hall, hs] at h
    | some opm =>
      by_cases hv : opm.verify (opm.set_default_attribute op) = true
      · simp [add_op, hall, hs, hv] at h
      · simp [add_op, hall, hs, hv]
  · simp [add_op, hall] at h

/-- C2 witness: a schema that rejects the op yields `invalid_op` and leaves
the (empty) op list untouched. -/
theorem add_op_error_unchanged_witness :
    (add_op (fun _ => some ⟨id, fun _ => false⟩) ⟨[]⟩
        ⟨0, .ReLU, [], [], []⟩).1 ≠ .success
    ∧ (add_op (fun _ => some ⟨id, fun _ => false⟩) ⟨[]⟩
        ⟨0, .ReLU, [], [], []⟩).2 = ⟨[]⟩ :=
  ⟨by decide,
    add_op_error_leaves_graph_unchanged _ _ _ (by decide)⟩

/-- C4: on the 3-input (bias) convolution followed by batch-norm and relu,
`conv_bn_fusion` alone matches nothing, while `conv_bias_bn_relu_fusion`
produces exactly one partition of fused kind `conv_bias_bn_relu`. -/
theorem conv_bias_bn_relu_scenario :
    runPatternPass convBnPass convBias3BnReluGraph = []
    ∧ (runPatternPass convBiasBnReluPass convBias3BnReluGraph).map
        Partition.fused = [.conv_bias_bn_relu] := by
  constructor <;> decide

/-- C5: `conv_bias_relu6_fusion` fuses `Convolution → BiasAdd → HardTanh`
into one `conv_bias_relu6` partition when `(min, max) = (0, 6)`, and
matches nothing when `max = 5`. -/
theorem conv_bias_relu6_scenario :
    (runPatternPass convBiasRelu6Pass (relu6Graph 6)).map Partition.fused
        = [.conv_bias_relu6]
    ∧ runPatternPass convBiasRelu6Pass (relu6Graph 5) = [] := by
  constructor <;> decide

/-- C7: the swish pattern — `MatMul → BiasAdd → Sigmoid → Multiply` with the
multiply's other input the bias output — yields exactly one partition of
fused kind `matmul_bias_swish`. -/
theorem matmul_bias_swish_scenario :
    (runSwishPass matmulBiasSwishGraph).map Partition.fused
      = [.matmul_bias_swish] := by
  decide

/-!  Invariance of matching under input-slot swaps (C6). -/

theorem swapNode_id (nid : Nat) (n : Op) : (swapNode nid n).id = n.id := by
  unfold swapNode
  split <;> rfl

theorem swapNode_kind (nid : Nat) (n : Op) :
    (swapNode nid n).kind = n.kind := by
  unfold swapNode
  split <;> rfl

theorem swapNode_outs (nid : Nat) (n : Op) :
    (swapNode nid n).outs = n.outs := by
  unfold swapNode
  split <;> rfl

theorem swapNode_attrs (nid : Nat) (n : Op) :
    (swapNode nid n).attrs = n.attrs := by
  unfold swapNode
  split <;> rfl

theorem swapHead2_length (l : List Nat) :
    (swapHead2 l).length = l.length := by
  match l with
  | [] => rfl
  | [a] => rfl
  | a :: b :: rest => rfl

theorem swapHead2_count (t : Nat) (l : List Nat) :
    (swapHead2 l).count t = l.count t := by
  match l with
  | [] => rfl
  | [a] => rfl
  | a :: b :: rest =>
    show (b :: a :: rest).count t = (a :: b :: rest).count t
    simp only [List.count_cons]
    ring

theorem swapNode_ins_length (nid : Nat) (n : Op) :
    (swapNode nid n).ins.length = n.ins.length := by
  unfold swapNode
  split
  · exact swapHead2_length n.ins
  · rfl

theorem swapNode_ins_count (nid : Nat) (t : Nat) (n : Op) :
    (swapNode nid n).ins.count t = n.ins.count t := by
  unfold swapNode
  split
  · exact swapHead2_count t n.ins
  · rfl

theorem stageOk_swapNode (st : Stage) (nid : Nat) (n : Op) :
    stageOk st (swapNode nid n) = stageOk st n := by
  unfold stageOk
  rw [swapNode_kind, swapNode_ins_length, swapNode_attrs]

theorem producer_swapIns (g : Graph) (nid : Nat) (t : Nat) :
    producer (swapIns g nid) t = (producer g t).map (swapNode nid) := by
  unfold producer swapIns
  rw [List.find?_map]
  have hfun : ((fun n : Op => n.outs.contains t) ∘ swapNode nid)
      = fun n : Op => n.outs.contains t := by
    funext n
    simp [Function.comp, swapNode_outs]
  rw [hfun]

theorem fanOut_swapIns (g : Graph) (nid : Nat) (t : Nat) :
    fanOut (swapIns g nid) t = fanOut g t := by
  unfold fanOut swapIns
  rw [List.map_map]
  have hfun : ((fun n : Op => n.ins.count t) ∘ swapNode nid)
      = fun n : Op => n.ins.count t := by
    funext n
    simp [Function.comp, swapNode_ins_count]
  rw [hfun]

theorem isSome_orElse {α : Type} (x : Option α) (f : Unit → Option α) :
    (x.orElse f).isSome = (x.isSome || (f ()).isSome) := by
  cases x <;> rfl

theorem matchChain_fixed0 (g : Graph) (st : Stage)
    (rest : List (EdgeSlot × Stage)) (c : Op) :
    matchChain g ((.fixed0, st) :: rest) c
      = match c.ins.head? with
        | none => none
        | some t => tryAt g st rest t := by
  cases h : c.ins.head? <;> simp only [matchChain, tryAt, h]

theorem matchChain_either (g : Graph) (st : Stage)
    (rest : List (EdgeSlot × Stage)) (c : Op) :
    matchChain g ((.eitherSlot, st) :: rest) c
      = match c.ins with
        | [a, b] => (tryAt g st rest a).orElse (fun _ => tryAt g st rest b)
        | _ => none := by
  match h : c.ins with
  | [] => simp only [matchChain, h]
  | [a] => simp only [matchChain, h]
  | [a, b] => simp only [matchChain, tryAt, h]
  | a :: b :: x :: l => simp only [matchChain, h]

theorem tryAt_swap (g : Graph) (nid : Nat) (st2 : Stage)
    (rest : List (EdgeSlot × Stage))
    (hrec : ∀ (st : Stage) (c : Op), safeChain st rest = true →
      stageOk st c = true →
      (matchChain (swapIns g nid) rest (swapNode nid c)).isSome
        = (matchChain g rest c).isSome)
    (hsafe : safeChain st2 rest = true) (t : Nat) :
    (tryAt (swapIns g nid) st2 rest t).isSome
      = (tryAt g st2 rest t).isSome := by
  unfold tryAt
  rw [producer_swapIns]
  cases hp : producer g t with
  | none => rfl
  | some p =>
    simp only [Option.map_some']
    rw [stageOk_swapNode, swapNode_outs, fanOut_swapIns]
    by_cases hcond :
        (stageOk st2 p && (p.outs.length == 1) && (fanOut g t == 1)) = true
    · rw [if_pos hcond, if_pos hcond]
      simp only [Option.isSome_map']
      have hok : stageOk st2 p = true := by
        have h1 := (Bool.and_eq_true _ _).mp hcond
        exact ((Bool.and_eq_true _ _).mp h1.1).1
      exact hrec st2 p hsafe hok
    · rw [if_neg hcond, if_neg hcond]

theorem matchChain_swap (g : Graph) (nid : Nat) :
    ∀ (chain : List (EdgeSlot × Stage)) (st : Stage) (c : Op),
      safeChain st chain = true → stageOk st c = true →
      (matchChain (swapIns g nid) chain (swapNode nid c)).isSome
        = (matchChain g chain c).isSome := by
  intro chain
  induction chain with
  | nil => intro st c _ _; rfl
  | cons est rest ih =>
    obtain ⟨e, st2⟩ := est
    cases e with
    | fixed0 =>
      intro st c hsafe hok
      have hparts := (Bool.and_eq_true _ _).mp hsafe
      have harity : st.arity = some 1 := by
        have := hparts.1
        simpa using this
      have hsafe2 : safeChain st2 rest = true := hparts.2
      have hlen : c.ins.length = 1 := by
        unfold stageOk at hok
        have h1 := (Bool.and_eq_true _ _).mp hok
        have h2 := ((Bool.and_eq_true _ _).mp h1.1).2
        rw [harity] at h2
        simpa using h2
      have hswapins : (swapNode nid c).ins = c.ins := by
        obtain ⟨t, hins⟩ := List.length_eq_one.mp hlen
        unfold swapNode
        split
        · show swapHead2 c.ins = c.ins
          rw [hins]
          rfl
        · rfl
      rw [matchChain_fixed0, matchChain_fixed0, hswapins]
      cases hh : c.ins.head? with
      | none => rfl
      | some t => exact tryAt_swap g nid st2 rest ih hsafe2 t
    | eitherSlot =>
      intro st c hsafe hok
      have hsafe2 : safeChain st2 rest = true := by
        simpa [safeChain] using hsafe
      have hAt := tryAt_swap g nid st2 rest ih hsafe2
      rw [matchChain_either, matchChain_either]
      by_cases hid : (c.id == nid) = true
      · have hsw : (swapNode nid c).ins = swapHead2 c.ins := by
          unfold swapNode
          rw [if_pos hid]
        match hins : c.ins with
        | [] => rw [hsw, hins]; rfl
        | [a] => rw [hsw, hins]; rfl
        | [a, b] =>
          rw [hsw, hins]
          show ((tryAt (swapIns g nid) st2 rest b).orElse
              (fun _ => tryAt (swapIns g nid) st2 rest a)).isSome
            = ((tryAt g st2 rest a).orElse
              (fun _ => tryAt g st2 rest b)).isSome
          rw [isSome_orElse, isSome_orElse, hAt a, hAt b, Bool.or_comm]
        | a :: b :: x :: l => rw [hsw, hins]; rfl
      · have hsw : (swapNode nid c).ins = c.ins := by
          unfold swapNode
          rw [if_neg]
          simpa using hid
        rw [hsw]
        match hins : c.ins with
        | [] => rfl
        | [a] => rfl
        | [a, b] =>
          show ((tryAt (swapIns g nid) st2 rest a).orElse
              (fun _ => tryAt (swapIns g nid) st2 rest b)).isSome = _
          rw [isSome_orElse, isSome_orElse, hAt a, hAt b]
        | a :: b :: x :: l => rfl

theorem tryMatch_swap (pat : Pattern) (g : Graph) (nid : Nat) (c : Op)
    (h : commutSafe pat = true) :
    (tryMatch (swapIns g nid) pat (swapNode nid c)).isSome
      = (tryMatch g pat c).isSome := by
  unfold tryMatch
  rw [stageOk_swapNode]
  by_cases hok : stageOk pat.root c = true
  · rw [if_pos hok, if_pos hok]
    simp only [Option.isSome_map']
    exact matchChain_swap g nid pat.chain pat.root c h hok
  · rw [if_neg hok, if_neg hok]

/-- C6: matching of commutative binary ops is invariant under swapping the
two input slots — for any commutation-safe pattern, a match attempt rooted
anywhere succeeds iff it succeeds after exchanging the two leading inputs
of any op; concretely, `matmul_sum_fusion` fuses `MatMul + Add` into
`matmul_add` for either operand order and `gelu_fusion` matches all four
orderings of the inputs of its two `Add` nodes. -/
theorem commutative_matching :
    (∀ (pat : Pattern) (g : Graph) (nid : Nat) (c : Op),
      commutSafe pat = true →
      (tryMatch (swapIns g nid) pat (swapNode nid c)).isSome
        = (tryMatch g pat c).isSome)
    ∧ ((runPatternPass matmulSumPass (matmulSumGraph false)).map
        Partition.fused = [.matmul_add])
    ∧ ((runPatternPass matmulSumPass (matmulSumGraph true)).map
        Partition.fused = [.matmul_add])
    ∧ (∀ f1 f2 : Bool, (runPatternPass geluPass (geluGraph f1 f2)).map
        Partition.fused = [.gelu_fused]) :=
  ⟨fun pat g nid c h => tryMatch_swap pat g nid c h,
    by decide, by decide, by decide⟩

/-- C6 witness: swapping the `Add`'s inputs in the concrete matmul-sum
graph preserves matchability of the `matmul_sum_fusion` pattern at that
root. -/
theorem commutative_matching_witness :
    (tryMatch (swapIns (matmulSumGraph false) 2)
        ⟨⟨.Add, some 2, anyAttrs⟩,
          [(.eitherSlot, ⟨.MatMul, none, anyAttrs⟩)], .matmul_add⟩
        (swapNode 2 ⟨2, .Add, [10, 11], [12], []⟩)).isSome
      = (tryMatch (matmulSumGraph false)
        ⟨⟨.Add, some 2, anyAttrs⟩,
          [(.eitherSlot, ⟨.MatMul, none, anyAttrs⟩)], .matmul_add⟩
        ⟨2, .Add, [10, 11], [12], []⟩).isSome :=
  commutative_matching.1
    ⟨⟨.Add, some 2, anyAttrs⟩,
      [(.eitherSlot, ⟨.MatMul, none, anyAttrs⟩)], .matmul_add⟩
    (matmulSumGraph false) 2 ⟨2, .Add, [10, 11], [12], []⟩ (by decide)

/-!  Soundness of the backward walk and fan-out safety (C3). -/

theorem producer_mem (g : Graph) (t : Nat) (p : Op)
    (h : producer g t = some p) : p ∈ g.ops ∧ t ∈ p.outs := by
  unfold producer at h
  refine ⟨List.mem_of_find?_eq_some h, ?_⟩
  have h2 := List.find?_some h
  simpa using h2

theorem outs_single (p : Op) (t : Nat) (hlen : p.outs.length = 1)
    (hmem : t ∈ p.outs) : p.outs = [t] := by
  obtain ⟨x, hx⟩ := List.length_eq_one.mp hlen
  rw [hx] at hmem ⊢
  simp only [List.mem_singleton] at hmem
  rw [hmem]

theorem tryAt_linked (g : Graph) (st : Stage)
    (rest : List (EdgeSlot × Stage)) (t : Nat) (c : Op) (l : List Op)
    (hrec : ∀ (c2 : Op) (l2 : List Op),
      matchChain g rest c2 = some l2 → Linked g c2 l2)
    (hin : t ∈ c.ins) (h : tryAt g st rest t = some l) : Linked g c l := by
  unfold tryAt at h
  cases hp : producer g t with
  | none => rw [hp] at h; cases h
  | some p =>
    rw [hp] at h
    have h2 : (if (stageOk st p && (p.outs.length == 1)
          && (fanOut g t == 1)) = true then
        (matchChain g rest p).map (fun l => p :: l)
      else none) = some l := h
    by_cases hcond :
        (stageOk st p && (p.outs.length == 1) && (fanOut g t == 1)) = true
    · rw [if_pos hcond] at h2
      obtain ⟨l2, hmc, hl⟩ := Option.map_eq_some'.mp h2
      obtain ⟨hpmem, htp⟩ := producer_mem g t p hp
      have h1 := (Bool.and_eq_true _ _).mp hcond
      have hlen : p.outs.length = 1 := by
        have := ((Bool.and_eq_true _ _).mp h1.1).2
        simpa using this
      have hfan : fanOut g t = 1 := by
        have := h1.2
        simpa using this
      rw [← hl]
      exact Linked.cons c p t l2 hpmem (outs_single p t hlen htp) hfan hin
        (hrec p l2 hmc)
    · rw [if_neg hcond] at h2
      cases h2

theorem matchChain_linked (g : Graph) :
    ∀ (chain : List (EdgeSlot × Stage)) (c : Op) (l : List Op),
      matchChain g chain c = some l → Linked g c l := by
  intro chain
  induction chain with
  | nil =>
    intro c l h
    cases h
    exact Linked.nil c
  | cons est rest ih =>
    obtain ⟨e, st⟩ := est
    cases e with
    | fixed0 =>
      intro c l h
      rw [matchChain_fixed0] at h
      cases hh : c.ins.head? with
      | none => rw [hh] at h; cases h
      | some t =>
        rw [hh] at h
        exact tryAt_linked g st rest t c l ih (List.mem_of_mem_head? hh) h
    | eitherSlot =>
      intro c l h
      rw [matchChain_either] at h
      match hins : c.ins with
      | [] => rw [hins] at h; cases h
      | [a] => rw [hins] at h; cases h
      | [a, b] =>
        rw [hins] at h
        have h2 : ((tryAt g st rest a).orElse
            (fun _ => tryAt g st rest b)) = some l := h
        cases hA : tryAt g st rest a with
        | some la =>
          have hl : la = l := by
            rw [hA] at h2
            cases h2
            rfl
          rw [← hl]
          exact tryAt_linked g st rest a c la ih (by rw [hins]; simp) hA
        | none =>
          rw [hA] at h2
          have hB : tryAt g st rest b = some l := h2
          exact tryAt_linked g st rest b c l ih (by rw [hins]; simp) hB
      | a :: b :: x :: l2 => rw [hins] at h; cases h

theorem linked_mem_ops (g : Graph) (c : Op) (l : List Op)
    (h : Linked g c l) : ∀ p ∈ l, p ∈ g.ops := by
  induction h with
  | nil => simp
  | cons c p t rest hp houts hfan hins hlink ih =>
    intro q hq
    rcases List.mem_cons.mp hq with rfl | hq'
    · exact hp
    · exact ih q hq'

theorem linked_spec (g : Graph) (c : Op) (l : List Op) (h : Linked g c l) :
    ∀ p ∈ l, ∃ t, p.outs = [t] ∧ fanOut g t = 1
      ∧ ∃ cm, cm ∈ c :: l ∧ t ∈ cm.ins := by
  induction h with
  | nil => simp
  | cons c p t rest hp houts hfan hins hlink ih =>
    intro q hq
    rcases List.mem_cons.mp hq with rfl | hq'
    · exact ⟨t, houts, hfan, c, by simp, hins⟩
    · obtain ⟨t2, h1, h2, cm, hcm, h3⟩ := ih q hq'
      exact ⟨t2, h1, h2, cm, List.mem_cons_of_mem c hcm, h3⟩

theorem linked_path (g : Graph) (c : Op) (l : List Op)
    (h : Linked g c l) :
    c ∈ g.ops → ∀ p ∈ l, Relation.TransGen (StepRel g) p c := by
  induction h with
  | nil => simp
  | cons c p t rest hp houts hfan hins hlink ih =>
    intro hc q hq
    have hstep : StepRel g p c := ⟨hp, hc, t, by simp [houts], hins⟩
    rcases List.mem_cons.mp hq with rfl | hq'
    · exact Relation.TransGen.single hstep
    · exact Relation.TransGen.tail (ih hp q hq') hstep

theorem topo_step_lt (g : Graph) (h : TopoSorted g) (a b : Op)
    (hs : StepRel g a b) :
    ∀ (i j : Fin g.ops.length), g.ops.get i = a → g.ops.get j = b →
      i.val < j.val := by
  intro i j hi hj
  obtain ⟨-, -, t, hta, htb⟩ := hs
  exact h i j t (by rw [hi]; exact hta) (by rw [hj]; exact htb)

theorem topo_path_lt (g : Graph) (h : TopoSorted g) (a b : Op)
    (hp : Relation.TransGen (StepRel g) a b) :
    ∀ (i j : Fin g.ops.length), g.ops.get i = a → g.ops.get j = b →
      i.val < j.val := by
  induction hp with
  | single hs => exact topo_step_lt g h _ _ hs
  | tail hp2 hs ih =>
    intro i j hi hj
    obtain ⟨k, hk⟩ := List.mem_iff_get.mp hs.1
    exact (ih i k hi hk).trans (topo_step_lt g h _ _ hs k j hk hj)

theorem topo_no_cycle (g : Graph) (h : TopoSorted g) (a : Op)
    (ha : a ∈ g.ops) (hp : Relation.TransGen (StepRel g) a a) : False := by
  obtain ⟨i, hi⟩ := List.mem_iff_get.mp ha
  exact lt_irrefl i.val (topo_path_lt g h a a hp i i hi hi)

theorem two_le_sum_count (L : List Op) (t : Nat) (a b : Op) (ha : a ∈ L)
    (hb : b ∈ L) (hab : a ≠ b) (hta : t ∈ a.ins) (htb : t ∈ b.ins) :
    2 ≤ (L.map (fun n => n.ins.count t)).sum := by
  induction L with
  | nil => cases ha
  | cons x rest ih =>
    simp only [List.map_cons, List.sum_cons]
    rcases List.mem_cons.mp ha with rfl | ha'
    · rcases List.mem_cons.mp hb with rfl | hb'
      · exact absurd rfl hab
      · have h1 : 1 ≤ a.ins.count t := List.count_pos_iff.mpr hta
        have h2 : b.ins.count t ∈ rest.map (fun n => n.ins.count t) :=
          List.mem_map_of_mem _ hb'
        have h3 : 1 ≤ (rest.map (fun n => n.ins.count t)).sum :=
          le_trans (List.count_pos_iff.mpr htb)
            (List.single_le_sum (fun y _ => Nat.zero_le y) _ h2)
        omega
    · rcases List.mem_cons.mp hb with rfl | hb'
      · have h1 : 1 ≤ b.ins.count t := List.count_pos_iff.mpr htb
        have h2 : a.ins.count t ∈ rest.map (fun n => n.ins.count t) :=
          List.mem_map_of_mem _ ha'
        have h3 : 1 ≤ (rest.map (fun n => n.ins.count t)).sum :=
          le_trans (List.count_pos_iff.mpr hta)
            (List.single_le_sum (fun y _ => Nat.zero_le y) _ h2)
        omega
      · have := ih ha' hb'
        omega

theorem foldl_parts_subset (f : PassFn) (g : Graph) :
    ∀ (ops : List Op) (st : List Nat × List Partition) (part : Partition),
      part ∈ (ops.foldl (stepOp f g) st).2 →
      part ∈ st.2 ∨ ∃ c ∈ ops, ∃ mops, f g c = some (part.fused, mops)
        ∧ part.pops = mops := by
  intro ops
  induction ops with
  | nil => intro st part h; exact Or.inl h
  | cons c rest ih =>
    intro st part h
    rw [List.foldl_cons] at h
    rcases ih _ part h with hst | ⟨c2, hc2, mops, hf, hp⟩
    · unfold stepOp at hst
      cases hfc : f g c with
      | none => rw [hfc] at hst; exact Or.inl hst
      | some km =>
        obtain ⟨k, mops⟩ := km
        rw [hfc] at hst
        simp only at hst
        by_cases hguard :
            ((mops.map Op.id).all (fun i => !st.1.contains i)
              && nodupB (mops.map Op.id)) = true
        · rw [if_pos hguard] at hst
          rcases List.mem_append.mp hst with h1 | h2
          · exact Or.inl h1
          · simp only [List.mem_singleton] at h2
            right
            exact ⟨c, List.mem_cons_self c rest, mops,
              by rw [h2, hfc], by rw [h2]⟩
        · rw [if_neg hguard] at hst
          exact Or.inl hst
    · exact Or.inr ⟨c2, List.mem_cons_of_mem c hc2, mops, hf, hp⟩

theorem runPatternPass_inv (variants : List Pattern) (g : Graph)
    (part : Partition) (h : part ∈ runPatternPass variants g) :
    ∃ c ∈ g.ops, ∃ pat ∈ variants, stageOk pat.root c = true ∧
      ∃ l, matchChain g pat.chain c = some l ∧ part.fused = pat.fused
        ∧ part.pops = c :: l := by
  unfold runPatternPass runPassFn at h
  rcases foldl_parts_subset _ g g.ops _ part h with h0 | ⟨c, hc, mops, hf, hp⟩
  · cases h0
  · unfold patternFn at hf
    obtain ⟨pat, hpat, hfp⟩ := List.exists_of_findSome?_eq_some hf
    obtain ⟨l0, htm, heq⟩ := Option.map_eq_some'.mp hfp
    have hfused : part.fused = pat.fused := by
      have := congrArg Prod.fst heq
      simp at this
      rw [this]
    have hmops : mops = l0 := by
      have := congrArg Prod.snd heq
      simpa using this.symm
    unfold tryMatch at htm
    by_cases hok : stageOk pat.root c = true
    · rw [if_pos hok] at htm
      obtain ⟨l, hmc, hl⟩ := Option.map_eq_some'.mp htm
      exact ⟨c, hc, pat, hpat, hok, l, hmc, hfused,
        by rw [hp, hmops, ← hl]⟩
    · rw [if_neg hok] at htm
      cases htm

/-- C3: fan-out safety — a pattern pass never subsumes an op whose output
is consumed both inside and outside the matched region (given the
topologically-ordered op list `build_graph` guarantees); in particular, on
the graph whose convolution output feeds both a batch-norm and a relu
(fan-out 2), `conv_bn_fusion` produces zero partitions. -/
theorem fanout_safety :
    (∀ (g : Graph) (variants : List Pattern), TopoSorted g →
      ∀ part ∈ runPatternPass variants g, ∀ p ∈ part.pops, ∀ t ∈ p.outs,
        ¬((∃ m ∈ part.pops, t ∈ m.ins)
          ∧ (∃ m ∈ g.ops, m ∉ part.pops ∧ t ∈ m.ins)))
    ∧ runPatternPass convBnPass convBnFanOutGraph = [] := by
  constructor
  · intro g variants htopo part hpart p hp t ht hcontra
    obtain ⟨⟨mIn, hmIn, hmInT⟩, ⟨mOut, hmOutMem, hmOutNot, hmOutT⟩⟩ :=
      hcontra
    obtain ⟨c, hc, pat, hpatmem, hok, l, hmc, hfused, hpops⟩ :=
      runPatternPass_inv variants g part hpart
    have hlink : Linked g c l := matchChain_linked g pat.chain c l hmc
    rw [hpops] at hp hmIn hmOutNot
    rcases List.mem_cons.mp hp with heq | hpl
    · rw [heq] at ht
      rcases List.mem_cons.mp hmIn with heq2 | hmInL
      · rw [heq2] at hmInT
        exact topo_no_cycle g htopo c hc
          (Relation.TransGen.single ⟨hc, hc, t, ht, hmInT⟩)
      · have h1 : Relation.TransGen (StepRel g) mIn c :=
          linked_path g c l hlink hc mIn hmInL
        have h2 : StepRel g c mIn :=
          ⟨hc, linked_mem_ops g c l hlink mIn hmInL, t, ht, hmInT⟩
        exact topo_no_cycle g htopo c hc
          ((Relation.TransGen.single h2).trans h1)
    · obtain ⟨t2, houts, hfan, cm, hcm, hcmT⟩ :=
        linked_spec g c l hlink p hpl
      have ht2 : t = t2 := by
        rw [houts] at ht
        simpa using ht
      rw [ht2] at hmOutT
      have hcmMem : cm ∈ g.ops := by
        rcases List.mem_cons.mp hcm with rfl | h4
        · exact hc
        · exact linked_mem_ops g c l hlink cm h4
      have hne : mOut ≠ cm := fun e => hmOutNot (e ▸ hcm)
      have h2 := two_le_sum_count g.ops t2 mOut cm hmOutMem hcmMem hne
        hmOutT hcmT
      unfold fanOut at hfan
      omega
  · decide

/-- C3 witness: in the fused `conv_bn` partition of the plain conv-bn
graph, the batch-norm output (tensor 7) is not consumed both inside and
outside the partition. -/
theorem fanout_safety_witness :
    ¬((∃ m ∈ (Partition.mk .conv_bn
          [⟨1, .BatchNormInference, [2, 3, 4, 5, 6], [7],
              [("epsilon", .f32 epsQ)]⟩,
            ⟨0, .Convolution, [0, 1], [2], convAttrs⟩]).pops, (7 : Nat) ∈ m.ins)
      ∧ (∃ m ∈ convBnGraph.ops,
          m ∉ (Partition.mk .conv_bn
            [⟨1, .BatchNormInference, [2, 3, 4, 5, 6], [7],
                [("epsilon", .f32 epsQ)]⟩,
              ⟨0, .Convolution, [0, 1], [2], convAttrs⟩]).pops
          ∧ (7 : Nat) ∈ m.ins)) :=
  fanout_safety.1 convBnGraph convBnPass (by decide)
    (Partition.mk .conv_bn
      [⟨1, .BatchNormInference, [2, 3, 4, 5, 6], [7],
          [("epsilon", .f32 epsQ)]⟩,
        ⟨0, .Convolution, [0, 1], [2], convAttrs⟩]) (by decide)
    ⟨1, .BatchNormInference, [2, 3, 4, 5, 6], [7],
      [("epsilon", .f32 epsQ)]⟩ (by decide) 7 (by decide)

/-!  Round-trip of the exported pass ordering (C9). -/

theorem findPass_self (reg : List RegPass)
    (h : (reg.map RegPass.name).Nodup) :
    ∀ p ∈ reg, findPass reg p.name = some p := by
  induction reg with
  | nil => simp
  | cons q rest ih =>
    simp only [List.map_cons, List.nodup_cons] at h
    intro p hp
    rcases List.mem_cons.mp hp with rfl | hp'
    · unfold findPass
      rw [List.find?_cons_of_pos]
      simp
    · have hne : q.name ≠ p.name :=
        fun e => h.1 (e ▸ List.mem_map_of_mem RegPass.name hp')
      unfold findPass
      rw [List.find?_cons_of_neg]
      · exact ih h.2 p hp'
      · simp [hne]

theorem mem_insertByPrio (p x : RegPass) (l : List RegPass) :
    x ∈ insertByPrio p l ↔ x = p ∨ x ∈ l := by
  induction l with
  | nil => simp [insertByPrio]
  | cons q rest ih =>
    unfold insertByPrio
    by_cases hq : q.priority < p.priority
    · rw [if_pos hq]
      simp only [List.mem_cons]
    · rw [if_neg hq]
      simp only [List.mem_cons, ih]
      tauto

theorem mem_sortByPrioDesc (l : List RegPass) (x : RegPass)
    (h : x ∈ sortByPrioDesc l) : x ∈ l := by
  induction l with
  | nil => cases h
  | cons q rest ih =>
    unfold sortByPrioDesc at h
    rw [List.foldr_cons] at h
    rcases (mem_insertByPrio q x _).mp h with heq | h2
    · rw [heq]
      exact List.mem_cons_self q rest
    · exact List.mem_cons_of_mem q (ih h2)

theorem filterMap_eq_self_of {α : Type} (l : List α) (f : α → Option α)
    (h : ∀ x ∈ l, f x = some x) : l.filterMap f = l := by
  induction l with
  | nil => rfl
  | cons x rest ih =>
    rw [List.filterMap_cons, h x (List.mem_cons_self x rest),
      ih (fun y hy => h y (List.mem_cons_of_mem x hy))]

theorem effective_roundtrip (reg : List RegPass)
    (h : (reg.map RegPass.name).Nodup) :
    effectivePasses reg (some (print_passes reg)) = sortByPrioDesc reg := by
  have hred : effectivePasses reg (some (print_passes reg))
      = ((sortByPrioDesc reg).map (fun p =>
          ConfigEntry.mk p.name p.ptype true p.priority)).filterMap
        (fun e => if e.enable = true then findPass reg e.pass_name
          else none) := rfl
  rw [hred, List.filterMap_map]
  apply filterMap_eq_self_of
  intro p hp
  show findPass reg p.name = some p
  exact findPass_self reg h p (mem_sortByPrioDesc reg p hp)

/-- C9: exporting the pass list with `print_passes` and re-importing the
written configuration yields the default priority-descending ordering, so
running the passes under the exported configuration produces the same
partitions as running with no configuration, on every graph. -/
theorem save_load_roundtrip (reg : List RegPass) (g : Graph)
    (h : (reg.map RegPass.name).Nodup) :
    run_passes reg (some (print_passes reg)) g = run_passes reg none g := by
  unfold run_passes
  rw [effective_roundtrip reg h]
  rfl

/-- C9 witness: a two-pass registry round-trips on the conv-bn graph. -/
theorem save_load_roundtrip_witness :
    run_passes
        [⟨"conv_bias_bn_relu_fusion", "fusion", 100, patternFn convBiasBnReluPass⟩,
          ⟨"conv_bn_fusion", "fusion", 97, patternFn convBnPass⟩]
        (some (print_passes
          [⟨"conv_bias_bn_relu_fusion", "fusion", 100, patternFn convBiasBnReluPass⟩,
            ⟨"conv_bn_fusion", "fusion", 97, patternFn convBnPass⟩]))
        convBnGraph
      = run_passes
        [⟨"conv_bias_bn_relu_fusion", "fusion", 100, patternFn convBiasBnReluPass⟩,
          ⟨"conv_bn_fusion", "fusion", 97, patternFn convBnPass⟩]
        none convBnGraph :=
  save_load_roundtrip
    [⟨"conv_bias_bn_relu_fusion", "fusion", 100, patternFn convBiasBnReluPass⟩,
      ⟨"conv_bn_fusion", "fusion", 97, patternFn convBnPass⟩]
    convBnGraph (by decide)

end DnnlGraph
